import Mathlib

/-!
# Verification of the premiere-mcp segment-finding and caching core

This file embeds the segment matcher (`src/analyzer/segment-finder.ts`), the
analysis record store (`src/cache/store.ts`) and the cache/cleanup control flow
of the two analysis orchestrators (`src/analyzer/whisper.ts` and the visual
orchestrator) into Lean, and proves the specified properties about them.

Modelling conventions:
* JavaScript numbers (all times, confidences, fps, epoch timestamps) are
  modelled as `ℚ`.  All arithmetic the claims touch is `max`, `+`, `-`, `/`
  and comparisons, which the rational model reflects exactly.
* Searchable text (`segment.text`, `word.word`, frame `description`,
  `objects`, `scene`, and the `matchedContent`/`context` of a result) is
  modelled as `List Char`, with `String.includes` modelled by `strContains`
  and `toLowerCase` by mapping `Char.toLower`.  Identifier-like strings
  (`analysisId`, `videoPath`, `language`, column keys) stay `String`.
* `Array.prototype.sort` is stable (ES2019); it is modelled by a stable
  insertion sort over the same boolean comparator, which agrees with every
  stable sort for a total preorder.
* The reserved word `end` is spelled `end_` in field names.
-/

/-- Searchable text: a JavaScript string as a list of characters. -/
abbrev Str := List Char

/-- `strStarts h n` : `n` is a leading piece of `h` (JS `startsWith`). -/
def strStarts : Str → Str → Bool
  | _, [] => true
  | [], _ :: _ => false
  | c :: h, d :: n => c == d && strStarts h n

/-- `strContains h n` models JavaScript `h.includes(n)`:
`n` occurs contiguously somewhere in `h` (the empty needle always matches). -/
def strContains : Str → Str → Bool
  | [], n => strStarts [] n
  | c :: t, n => strStarts (c :: t) n || strContains t n

/-- Case normalisation: identity when `caseSensitive`, otherwise
`toLowerCase` (per-character lowering). -/
def normCase (caseSensitive : Bool) (s : Str) : Str :=
  if caseSensitive then s else s.map Char.toLower

/-- `Array.prototype.join(" ")`. -/
def joinSpace : List Str → Str
  | [] => []
  | [s] => s
  | s :: t :: rest => s ++ ' ' :: joinSpace (t :: rest)

/-- `Array.prototype.join(", ")`. -/
def joinCommaSpace : List Str → Str
  | [] => []
  | [s] => s
  | s :: t :: rest => s ++ ',' :: ' ' :: joinCommaSpace (t :: rest)

/-! ## Data model (`src/types/index.ts`) -/

/-- `TranscriptSegment` from `src/types/index.ts` (the `id` is a JS number). -/
structure TranscriptSegment where
  id : ℚ
  start : ℚ
  end_ : ℚ
  text : Str
deriving DecidableEq, Repr

/-- `WordTimestamp` from `src/types/index.ts`. -/
structure WordTimestamp where
  word : Str
  start : ℚ
  end_ : ℚ
  confidence : ℚ
deriving DecidableEq, Repr

/-- `SpeechAnalysisResult` from `src/types/index.ts`. -/
structure SpeechAnalysisResult where
  analysisId : String
  videoPath : String
  duration : ℚ
  language : String
  segments : List TranscriptSegment
  words : List WordTimestamp
  createdAt : ℚ
deriving DecidableEq, Repr

/-- `FrameAnalysis` from `src/types/index.ts`. -/
structure FrameAnalysis where
  timestamp : ℚ
  framePath : String
  description : Str
  objects : List Str
  scene : Str
deriving DecidableEq, Repr

/-- `VisualAnalysisResult` from `src/types/index.ts`. -/
structure VisualAnalysisResult where
  analysisId : String
  videoPath : String
  duration : ℚ
  fps : ℚ
  framesAnalyzed : ℕ
  frames : List FrameAnalysis
  createdAt : ℚ
deriving DecidableEq, Repr

/-- The `matchType` field of a `FoundSegment`. -/
inductive MatchType where
  | speech
  | visual
deriving DecidableEq, Repr

/-- `FoundSegment` from `src/types/index.ts`. -/
structure FoundSegment where
  start : ℚ
  end_ : ℚ
  duration : ℚ
  matchType : MatchType
  matchedContent : Str
  confidence : ℚ
  context : Str
deriving DecidableEq, Repr

/-- `FindSegmentsOptions` from `src/analyzer/segment-finder.ts`, after the
destructuring defaults (`maxResults = 10`, `minDuration = 1`,
`expandBy = 0.5`, `caseSensitive = false`) have been applied. -/
inductive SearchType where
  | speech
  | visual
  | both
deriving DecidableEq, Repr

structure FindSegmentsOptions where
  query : Str
  searchType : SearchType
  maxResults : ℕ
  minDuration : ℚ
  expandBy : ℚ
  caseSensitive : Bool
deriving DecidableEq, Repr

/-! ## The JS stable sort

`[...segments].sort(cmp)` with a consistent comparator is the unique stable
sort for the induced total preorder; we model it by stable insertion sort
parameterised by the boolean "less or equal" test derived from the
comparator. -/

def orderedInsert (le : FoundSegment → FoundSegment → Bool) (a : FoundSegment) :
    List FoundSegment → List FoundSegment
  | [] => [a]
  | b :: l => if le a b then a :: b :: l else b :: orderedInsert le a l

def stableSortBy (le : FoundSegment → FoundSegment → Bool) :
    List FoundSegment → List FoundSegment
  | [] => []
  | a :: l => orderedInsert le a (stableSortBy le l)

/-- Comparator `(a, b) => a.start - b.start` (ascending by `start`). -/
def leStart (a b : FoundSegment) : Bool := a.start ≤ b.start

/-- Comparator `(a, b) => b.confidence - a.confidence`
(descending by `confidence`). -/
def leConfDesc (a b : FoundSegment) : Bool := b.confidence ≤ a.confidence

/-! ## `segment-finder.ts` -/

/-- The fallback segment for the (never exercised, always in-bounds) default
of indexed access in `getTranscriptContext`. -/
def dummySegment : TranscriptSegment := ⟨0, 0, 0, []⟩

/-- `getTranscriptContext` (`segment-finder.ts` lines 17–33): the texts of the
segments whose index `i` lies in
`[max 0 (segmentId - contextSize), min (length - 1) (segmentId + contextSize)]`,
visited in increasing order and joined with single spaces. -/
def getTranscriptContext (segments : List TranscriptSegment) (segmentId : ℚ)
    (contextSize : ℚ) : Str :=
  joinSpace
    (((List.range segments.length).filter
        (fun (i : ℕ) =>
          decide (max 0 (segmentId - contextSize) ≤ (i : ℚ)) &&
          decide ((i : ℚ) ≤ min ((segments.length : ℚ) - 1) (segmentId + contextSize)))).map
      (fun i => (segments.getD i dummySegment).text))

/-- Literal `" | "` separator used when merging `matchedContent`s. -/
def sepBar : Str := [' ', '|', ' ']

/-- The merged accumulator built at `segment-finder.ts` lines 50–58 when
`next.start ≤ current.end`. -/
def mergeTwo (current next : FoundSegment) : FoundSegment :=
  { start := current.start
    end_ := max current.end_ next.end_
    duration := max current.end_ next.end_ - current.start
    matchType := if current.matchType = next.matchType then current.matchType
      else MatchType.speech
    matchedContent := current.matchedContent ++ sepBar ++ next.matchedContent
    confidence := max current.confidence next.confidence
    context := current.context }

/-- The sweep loop of `mergeOverlappingSegments` (lines 44–65): `current` is
the running accumulator, the argument list is the rest of the sorted input. -/
def mergeLoop (current : FoundSegment) : List FoundSegment → List FoundSegment
  | [] => [current]
  | next :: rest =>
    if next.start ≤ current.end_ then mergeLoop (mergeTwo current next) rest
    else current :: mergeLoop next rest

/-- `mergeOverlappingSegments` (`segment-finder.ts` lines 35–67). -/
def mergeOverlappingSegments (segments : List FoundSegment) : List FoundSegment :=
  if segments.length ≤ 1 then segments
  else
    match stableSortBy leStart segments with
    | [] => []
    | c :: rest => mergeLoop c rest

/-- The candidate pushed for a matching transcript segment
(`segment-finder.ts` lines 94–107); the loop over `speechAnalysis.segments`
with a conditional push is `filter` + `map`. -/
def speechSegmentCandidates (segments : List TranscriptSegment)
    (searchQuery : Str) (expandBy : ℚ) (caseSensitive : Bool) : List FoundSegment :=
  (segments.filter (fun seg => strContains (normCase caseSensitive seg.text) searchQuery)).map
    (fun seg =>
      { start := max 0 (seg.start - expandBy)
        end_ := seg.end_ + expandBy
        duration := seg.end_ + expandBy - max 0 (seg.start - expandBy)
        matchType := MatchType.speech
        matchedContent := seg.text
        confidence := 1
        context := getTranscriptContext segments seg.id 1 })

/-- The word-level candidates (`segment-finder.ts` lines 111–135).  The JS
`containingSegment?.text || ""` yields `""` both when no segment contains the
word and when the containing segment's text is the (falsy) empty string, so
it coincides with `(·.text)` + default `[]`. -/
def wordCandidates (segments : List TranscriptSegment) (words : List WordTimestamp)
    (searchQuery : Str) (expandBy : ℚ) (caseSensitive : Bool) : List FoundSegment :=
  if 0 < words.length then
    (words.filter (fun w => strContains (normCase caseSensitive w.word) searchQuery)).map
      (fun w =>
        { start := max 0 (w.start - expandBy)
          end_ := w.end_ + expandBy
          duration := w.end_ + expandBy - max 0 (w.start - expandBy)
          matchType := MatchType.speech
          matchedContent := w.word
          confidence := w.confidence
          context :=
            ((segments.find? (fun s =>
                decide (s.start ≤ w.start) && decide (w.end_ ≤ s.end_))).map
              (fun s => s.text)).getD [] })
  else []

/-- The match test for one frame (`segment-finder.ts` lines 145–157). -/
def frameMatches (frame : FrameAnalysis) (searchQuery : Str)
    (caseSensitive : Bool) : Bool :=
  strContains (normCase caseSensitive frame.description) searchQuery ||
  (frame.objects.map (normCase caseSensitive)).any (fun o => strContains o searchQuery) ||
  strContains (normCase caseSensitive frame.scene) searchQuery

/-- The `context` string of a visual candidate:
`"Scene: <scene>, Objects: <objects joined by comma-space>"`. -/
def sceneContext (frame : FrameAnalysis) : Str :=
  String.toList "Scene: " ++ frame.scene ++ String.toList ", Objects: " ++
    joinCommaSpace frame.objects

/-- The visual candidates (`segment-finder.ts` lines 144–174). -/
def visualCandidates (va : VisualAnalysisResult) (searchQuery : Str)
    (expandBy : ℚ) (caseSensitive : Bool) : List FoundSegment :=
  (va.frames.filter (fun f => frameMatches f searchQuery caseSensitive)).map
    (fun f =>
      { start := max 0 (f.timestamp - expandBy)
        end_ := f.timestamp + 1 / va.fps + expandBy
        duration := f.timestamp + 1 / va.fps + expandBy - max 0 (f.timestamp - expandBy)
        matchType := MatchType.visual
        matchedContent := f.description
        confidence := 4/5
        context := sceneContext f })

/-- The full pre-filter candidate list built by `findSegments`
(`segment-finder.ts` lines 83–177), in push order: segment-level speech
matches, then word-level matches, then visual matches. -/
def candidateList (speechAnalysis : Option SpeechAnalysisResult)
    (visualAnalysis : Option VisualAnalysisResult)
    (options : FindSegmentsOptions) : List FoundSegment :=
  let searchQuery := normCase options.caseSensitive options.query
  (match speechAnalysis with
    | some sa =>
      if options.searchType = SearchType.speech ∨ options.searchType = SearchType.both then
        speechSegmentCandidates sa.segments searchQuery options.expandBy options.caseSensitive ++
          wordCandidates sa.segments sa.words searchQuery options.expandBy options.caseSensitive
      else []
    | none => []) ++
  (match visualAnalysis with
    | some va =>
      if options.searchType = SearchType.visual ∨ options.searchType = SearchType.both then
        visualCandidates va searchQuery options.expandBy options.caseSensitive
      else []
    | none => [])

/-- `findSegments` (`segment-finder.ts` lines 69–192): collect candidates,
drop those shorter than `minDuration`, merge overlaps, rank by confidence
descending (stable) and truncate to `maxResults`. -/
def findSegments (speechAnalysis : Option SpeechAnalysisResult)
    (visualAnalysis : Option VisualAnalysisResult)
    (options : FindSegmentsOptions) : List FoundSegment :=
  let filtered := (candidateList speechAnalysis visualAnalysis options).filter
    (fun s => decide (options.minDuration ≤ s.duration))
  let merged := mergeOverlappingSegments filtered
  (stableSortBy leConfDesc merged).take options.maxResults

/-! ## `src/cache/store.ts` — the analysis record store

The `segments`/`words` columns are TEXT holding `JSON.stringify` of the typed
arrays; `getSpeechAnalysis` applies `JSON.parse` to them.  We model the JSON
value produced by `stringify` (object keys in insertion order, numbers exact
in the rational model) and the typed read-back, so "byte-for-byte identical
after serialization" becomes structural equality of the JSON values. -/

inductive Json where
  | num : ℚ → Json
  | str : Str → Json
  | arr : List Json → Json
  | obj : List (String × Json) → Json

/-- Field lookup in a parsed JSON object (first binding wins). -/
def jsonField (key : String) : Json → Option Json
  | Json.obj fields => (fields.find? (fun p => p.1 == key)).map (fun p => p.2)
  | _ => none

def asNum : Json → Option ℚ
  | Json.num q => some q
  | _ => none

def asStr : Json → Option Str
  | Json.str s => some s
  | _ => none

/-- `JSON.stringify` of one `TranscriptSegment` (keys in the insertion order
of the object literal built in `whisper.ts`). -/
def encodeSegment (s : TranscriptSegment) : Json :=
  Json.obj [("id", Json.num s.id), ("start", Json.num s.start),
    ("end", Json.num s.end_), ("text", Json.str s.text)]

def encodeSegments (l : List TranscriptSegment) : Json :=
  Json.arr (l.map encodeSegment)

def encodeWord (w : WordTimestamp) : Json :=
  Json.obj [("word", Json.str w.word), ("start", Json.num w.start),
    ("end", Json.num w.end_), ("confidence", Json.num w.confidence)]

def encodeWords (l : List WordTimestamp) : Json :=
  Json.arr (l.map encodeWord)

/-- The typed read of one parsed segment object. -/
def decodeSegment (j : Json) : Option TranscriptSegment := do
  let i ← asNum (← jsonField "id" j)
  let s ← asNum (← jsonField "start" j)
  let e ← asNum (← jsonField "end" j)
  let t ← asStr (← jsonField "text" j)
  pure ⟨i, s, e, t⟩

def decodeSegList : List Json → Option (List TranscriptSegment)
  | [] => some []
  | j :: rest =>
    match decodeSegment j, decodeSegList rest with
    | some s, some l => some (s :: l)
    | _, _ => none

def decodeSegments : Json → Option (List TranscriptSegment)
  | Json.arr items => decodeSegList items
  | _ => none

def decodeWord (j : Json) : Option WordTimestamp := do
  let w ← asStr (← jsonField "word" j)
  let s ← asNum (← jsonField "start" j)
  let e ← asNum (← jsonField "end" j)
  let c ← asNum (← jsonField "confidence" j)
  pure ⟨w, s, e, c⟩

def decodeWordList : List Json → Option (List WordTimestamp)
  | [] => some []
  | j :: rest =>
    match decodeWord j, decodeWordList rest with
    | some w, some l => some (w :: l)
    | _, _ => none

def decodeWords : Json → Option (List WordTimestamp)
  | Json.arr items => decodeWordList items
  | _ => none

/-- One row of the `speech_analysis` table. -/
structure SpeechRow where
  analysis_id : String
  video_path : String
  duration : ℚ
  language : String
  segments : Json
  words : Json
  created_at : ℚ

/-- The row written by `saveSpeechAnalysis` for a result. -/
def toSpeechRow (r : SpeechAnalysisResult) : SpeechRow :=
  ⟨r.analysisId, r.videoPath, r.duration, r.language,
    encodeSegments r.segments, encodeWords r.words, r.createdAt⟩

/-- `INSERT OR REPLACE` keyed by `analysis_id` (`store.ts` lines 104–122):
any row with the same primary key is replaced, the new row is appended. -/
def saveSpeechAnalysis (store : List SpeechRow) (r : SpeechAnalysisResult) :
    List SpeechRow :=
  (store.filter (fun row => !(row.analysis_id == r.analysisId))) ++ [toSpeechRow r]

/-- `ORDER BY created_at DESC LIMIT 1`: a row of maximal `created_at`
(the first maximum encountered in scan order). -/
def latestByCreatedAt (rows : List SpeechRow) : Option SpeechRow :=
  rows.foldl
    (fun acc row =>
      match acc with
      | none => some row
      | some a => if a.created_at < row.created_at then some row else acc)
    none

/-- The typed read-back of one speech row (`JSON.parse` of the two blob
columns plus the relational columns). -/
def rowToResult (row : SpeechRow) : Option SpeechAnalysisResult :=
  match decodeSegments row.segments, decodeWords row.words with
  | some segs, some ws =>
    some ⟨row.analysis_id, row.video_path, row.duration, row.language,
      segs, ws, row.created_at⟩
  | _, _ => none

/-- `getSpeechAnalysis` (`store.ts` lines 74–102): latest row for the path,
decoded; `none` when no row exists. -/
def getSpeechAnalysis (store : List SpeechRow) (videoPath : String) :
    Option SpeechAnalysisResult :=
  match latestByCreatedAt (store.filter (fun row => row.video_path == videoPath)) with
  | none => none
  | some row => rowToResult row

/-! ## Orchestrator models -/

/-- The cache gate of the visual orchestrator `analyzeVideoVisual`
(`part_004` lines 124–131), as a function of the store lookup for the video
path, the requested `fps`, `forceReanalyze`, and the result `fresh` a full
engine run would produce.  The second component records whether the engine
path runs (`true`) or the cached record is returned directly (`false`). -/
def analyzeVideoVisualCache (lookup : Option VisualAnalysisResult) (fps : ℚ)
    (forceReanalyze : Bool) (fresh : VisualAnalysisResult) :
    VisualAnalysisResult × Bool :=
  if forceReanalyze = false then
    match lookup with
    | some cached => if cached.fps = fps then (cached, false) else (fresh, true)
    | none => (fresh, true)
  else (fresh, true)

/-- Effect trace of one `transcribeVideo` run (`whisper.ts` lines 57–215). -/
structure CleanupTrace where
  tempDirCreated : Bool
  tempDirRemoved : Bool
  failed : Bool
deriving DecidableEq, Repr

/-- The control flow of `transcribeVideo` around its temp directory, as a
function of which fallible steps succeed.  Tracing the source: `mkdtemp`
(line 91) runs after `getVideoInfo` (line 87) inside the `try`; the `rm` of
the temp directory (line 191) sits on the success path only, after the
transcription and the cache write; the `catch` block (lines 198–213) writes a
`failed` status and rethrows without any `rm`, and there is no `finally`. -/
def transcribeVideoCleanup (videoInfoOk extractOk whisperOk : Bool) : CleanupTrace :=
  if videoInfoOk = false then ⟨false, false, true⟩
  else if extractOk = false then ⟨true, false, true⟩
  else if whisperOk = false then ⟨true, false, true⟩
  else ⟨true, true, false⟩

/-! ## Spec-side reformulations and concrete scenario data -/

/-- Spec-side context window: the texts at indices `i-1`, `i`, `i+1`,
clamped at the array bounds, in original order (`i ≤ j + 1` is the
natural-number rendering of `i - 1 ≤ j`). -/
def neighborTexts (texts : List Str) (i : ℕ) : List Str :=
  ((List.range texts.length).filter
      (fun j => decide (i ≤ j + 1) && decide (j ≤ i + 1))).map
    (fun j => texts.getD j [])

/-- Scenario: the transcript segment `{id:0,start:0,end:5,text:"we launched
the product today"}`. -/
def productSegment : TranscriptSegment :=
  ⟨0, 0, 5, String.toList "we launched the product today"⟩

def productSpeech : SpeechAnalysisResult :=
  ⟨"speech-1", "/videos/launch.mp4", 30, "en", [productSegment], [], 1000⟩

def productOptions : FindSegmentsOptions :=
  ⟨String.toList "product", SearchType.speech, 10, 1, 1/2, false⟩

def productResult : FoundSegment :=
  ⟨0, 11/2, 11/2, MatchType.speech, String.toList "we launched the product today",
    1, String.toList "we launched the product today"⟩

/-- Scenario: the frame at `timestamp=10` with `description="red car in
driveway"` in an `fps=1` visual analysis. -/
def carFrame : FrameAnalysis :=
  ⟨10, "/tmp/frames/f10.jpg", String.toList "red car in driveway",
    [String.toList "car"], String.toList "driveway"⟩

def carVisual : VisualAnalysisResult :=
  ⟨"visual-1", "/videos/drive.mp4", 30, 1, 1, [carFrame], 1000⟩

def carOptions : FindSegmentsOptions :=
  ⟨String.toList "car", SearchType.visual, 10, 1, 1/2, false⟩

def carResult : FoundSegment :=
  ⟨19/2, 23/2, 2, MatchType.visual, String.toList "red car in driveway", 4/5,
    String.toList "Scene: driveway, Objects: car"⟩

/-- Scenario: the two overlapping candidates `{start:2,end:6}` and
`{start:5,end:9}` of spec §8. -/
def mergeLeft : FoundSegment :=
  ⟨2, 6, 4, MatchType.speech, String.toList "first", 1, String.toList "ctxA"⟩

def mergeRight : FoundSegment :=
  ⟨5, 9, 4, MatchType.speech, String.toList "second", 9/10, String.toList "ctxB"⟩

/-- Concrete record for the cache round-trip witness. -/
def rtSegment : TranscriptSegment := ⟨0, 1/2, 2, String.toList "hello there"⟩

def rtWord : WordTimestamp := ⟨String.toList "hello", 1/2, 1, 9/10⟩

def rtResult : SpeechAnalysisResult :=
  ⟨"speech-rt", "/videos/rt.mp4", 12, "en", [rtSegment], [rtWord], 2000⟩

/-- A visual record sampled at `fps = 1` and the fresh result an engine run
at `fps = 2` would produce, for the cache-gate example. -/
def fpsOneRecord : VisualAnalysisResult :=
  ⟨"visual-old", "/videos/v.mp4", 30, 1, 0, [], 1000⟩

def fpsTwoFresh : VisualAnalysisResult :=
  ⟨"visual-new", "/videos/v.mp4", 30, 2, 0, [], 2000⟩

/-! ## Helper lemmas -/

theorem strStarts_nil (h : Str) : strStarts h [] = true := by
  cases h <;> rfl

theorem strContains_nil (h : Str) : strContains h [] = true := by
  cases h with
  | nil => rfl
  | cons c t => simp [strContains, strStarts_nil]

theorem mem_orderedInsert {le : FoundSegment → FoundSegment → Bool}
    {a x : FoundSegment} :
    ∀ {l : List FoundSegment}, x ∈ orderedInsert le a l ↔ x = a ∨ x ∈ l := by
  intro l
  induction l with
  | nil => simp [orderedInsert]
  | cons b l ih =>
    simp only [orderedInsert]
    split
    · simp [List.mem_cons]
    · simp only [List.mem_cons, ih]
      tauto

theorem mem_stableSortBy {le : FoundSegment → FoundSegment → Bool}
    {x : FoundSegment} :
    ∀ {l : List FoundSegment}, x ∈ stableSortBy le l ↔ x ∈ l := by
  intro l
  induction l with
  | nil => simp [stableSortBy]
  | cons a l ih =>
    simp only [stableSortBy, mem_orderedInsert, List.mem_cons, ih]

theorem pairwise_orderedInsert {le : FoundSegment → FoundSegment → Bool}
    (htot : ∀ a b, le a b = false → le b a = true)
    (htrans : ∀ a b c, le a b = true → le b c = true → le a c = true)
    {a : FoundSegment} :
    ∀ {l : List FoundSegment}, l.Pairwise (fun x y => le x y = true) →
      (orderedInsert le a l).Pairwise (fun x y => le x y = true) := by
  intro l
  induction l with
  | nil => intro _; simp [orderedInsert]
  | cons b l ih =>
    intro hp
    rcases List.pairwise_cons.1 hp with ⟨hb, hl⟩
    simp only [orderedInsert]
    split
    case isTrue h =>
      refine List.pairwise_cons.2 ⟨?_, hp⟩
      intro x hx
      rcases List.mem_cons.1 hx with h' | hx
      · rw [h']; exact h
      · exact htrans a b x h (hb x hx)
    case isFalse h =>
      have hab : le a b = false := by simpa using h
      refine List.pairwise_cons.2 ⟨?_, ih hl⟩
      intro x hx
      rcases mem_orderedInsert.1 hx with h' | hx
      · rw [h']; exact htot _ _ hab
      · exact hb x hx

theorem pairwise_stableSortBy {le : FoundSegment → FoundSegment → Bool}
    (htot : ∀ a b, le a b = false → le b a = true)
    (htrans : ∀ a b c, le a b = true → le b c = true → le a c = true) :
    ∀ (l : List FoundSegment),
      (stableSortBy le l).Pairwise (fun x y => le x y = true) := by
  intro l
  induction l with
  | nil => simp [stableSortBy]
  | cons a l ih => exact pairwise_orderedInsert htot htrans ih

theorem leStart_total : ∀ a b : FoundSegment, leStart a b = false → leStart b a = true := by
  intro a b h
  simp only [leStart, decide_eq_false_iff_not, not_le] at h
  simp only [leStart, decide_eq_true_eq]
  exact le_of_lt h

theorem leStart_trans :
    ∀ a b c : FoundSegment, leStart a b = true → leStart b c = true → leStart a c = true := by
  intro a b c hab hbc
  simp only [leStart, decide_eq_true_eq] at *
  exact le_trans hab hbc

/-- The key sortedness fact about the modelled JS sort by `start`. -/
theorem sortByStart_pairwise (l : List FoundSegment) :
    (stableSortBy leStart l).Pairwise (fun a b => a.start ≤ b.start) := by
  refine (pairwise_stableSortBy leStart_total leStart_trans l).imp ?_
  intro a b h
  simpa [leStart, decide_eq_true_eq] using h

/-- The first element the sweep will eventually push keeps the accumulator's
`start` and `context` through any number of merges. -/
theorem mergeLoop_head :
    ∀ (rest : List FoundSegment) (current : FoundSegment),
      ∃ h t, mergeLoop current rest = h :: t ∧
        h.start = current.start ∧ h.context = current.context := by
  intro rest
  induction rest with
  | nil => intro current; exact ⟨current, [], rfl, rfl, rfl⟩
  | cons next rest ih =>
    intro current
    simp only [mergeLoop]
    split
    case isTrue h =>
      rcases ih (mergeTwo current next) with ⟨hd, t, heq, hs, hc⟩
      exact ⟨hd, t, heq, hs, hc⟩
    case isFalse h =>
      exact ⟨current, mergeLoop next rest, rfl, rfl, rfl⟩

/-- Sweep invariant: on a start-sorted remainder whose starts all dominate the
accumulator's, the sweep emits a start-sorted, strictly separated list. -/
theorem mergeLoop_sep :
    ∀ (rest : List FoundSegment) (current : FoundSegment),
      rest.Pairwise (fun a b => a.start ≤ b.start) →
      (∀ x ∈ rest, current.start ≤ x.start) →
      (mergeLoop current rest).Chain'
        (fun a b => a.start ≤ b.start ∧ a.end_ < b.start) := by
  intro rest
  induction rest with
  | nil => intro current _ _; simp [mergeLoop]
  | cons next rest ih =>
    intro current hp hcur
    rcases List.pairwise_cons.1 hp with ⟨hnext, hrest⟩
    simp only [mergeLoop]
    split
    case isTrue h =>
      refine ih (mergeTwo current next) hrest ?_
      intro x hx
      exact hcur x (List.mem_cons_of_mem _ hx)
    case isFalse h =>
      rcases mergeLoop_head rest next with ⟨hd, t, heq, hs, _⟩
      have hchain := ih next hrest hnext
      rw [heq] at hchain ⊢
      refine List.chain'_cons.2 ⟨⟨?_, ?_⟩, hchain⟩
      · rw [hs]; exact hcur next (List.mem_cons_self _ _)
      · rw [hs]; exact lt_of_not_le h
    
/-- The merged output is start-sorted and strictly separated. -/
theorem merge_sep (l : List FoundSegment) :
    (mergeOverlappingSegments l).Chain'
      (fun a b => a.start ≤ b.start ∧ a.end_ < b.start) := by
  unfold mergeOverlappingSegments
  split
  case isTrue h =>
    rcases l with _ | ⟨a, _ | ⟨b, t⟩⟩
    · simp
    · simp
    · simp [List.length_cons] at h
  case isFalse h =>
    cases hs : stableSortBy leStart l with
    | nil => simp
    | cons c rest =>
      have hpw : (c :: rest).Pairwise (fun a b => a.start ≤ b.start) := by
        rw [← hs]; exact sortByStart_pairwise l
      rcases List.pairwise_cons.1 hpw with ⟨hc, hrest⟩
      exact mergeLoop_sep rest c hrest hc

/-- Transitivity transfer: the separation chain is in fact pairwise. -/
theorem chain_sep_pairwise {l : List FoundSegment}
    (h : l.Chain' (fun a b => a.start ≤ b.start ∧ a.end_ < b.start)) :
    l.Pairwise (fun a b => a.start ≤ b.start ∧ a.end_ < b.start) := by
  haveI : IsTrans FoundSegment (fun a b => a.start ≤ b.start ∧ a.end_ < b.start) := by
    constructor
    rintro a b c ⟨h1, h2⟩ ⟨h3, h4⟩
    exact ⟨h1.trans h3, lt_of_lt_of_le h2 h3⟩
  exact List.chain'_iff_pairwise.1 h

theorem orderedInsert_of_le {le : FoundSegment → FoundSegment → Bool}
    {a b : FoundSegment} {l : List FoundSegment} (h : le a b = true) :
    orderedInsert le a (b :: l) = a :: b :: l := by
  simp [orderedInsert, h]

/-- Sorting an already-sorted list is the identity (so the modelled JS sort
fixes merged output). -/
theorem stableSortBy_of_pairwise {le : FoundSegment → FoundSegment → Bool} :
    ∀ {l : List FoundSegment}, l.Pairwise (fun x y => le x y = true) →
      stableSortBy le l = l := by
  intro l
  induction l with
  | nil => intro _; rfl
  | cons a l ih =>
    intro hp
    rcases List.pairwise_cons.1 hp with ⟨ha, hl⟩
    rw [stableSortBy, ih hl]
    cases l with
    | nil => rfl
    | cons b t => exact orderedInsert_of_le (ha b (List.mem_cons_self _ _))

/-- The sweep is the identity on a strictly separated list. -/
theorem mergeLoop_of_sep :
    ∀ (rest : List FoundSegment) (current : FoundSegment),
      (current :: rest).Chain' (fun a b => a.end_ < b.start) →
      mergeLoop current rest = current :: rest := by
  intro rest
  induction rest with
  | nil => intro current _; rfl
  | cons next rest ih =>
    intro current hc
    rcases List.chain'_cons.1 hc with ⟨h1, h2⟩
    rw [mergeLoop, if_neg (not_le.2 h1), ih next h2]

/-- Every element of the sweep output satisfies any property that holds of
the accumulator, of the remainder, and is preserved by the merge step. -/
theorem mergeLoop_all {P : FoundSegment → Prop}
    (hmerge : ∀ c n, P c → P n → P (mergeTwo c n)) :
    ∀ (rest : List FoundSegment) (current : FoundSegment),
      P current → (∀ x ∈ rest, P x) →
      ∀ y ∈ mergeLoop current rest, P y := by
  intro rest
  induction rest with
  | nil =>
    intro current hcur _ y hy
    simp only [mergeLoop, List.mem_singleton] at hy
    rw [hy]; exact hcur
  | cons next rest ih =>
    intro current hcur hall y hy
    simp only [mergeLoop] at hy
    split at hy
    case isTrue h =>
      refine ih (mergeTwo current next) ?_ ?_ y hy
      · exact hmerge current next hcur (hall next (List.mem_cons_self _ _))
      · intro x hx; exact hall x (List.mem_cons_of_mem _ hx)
    case isFalse h =>
      rcases List.mem_cons.1 hy with h' | hy'
      · rw [h']; exact hcur
      · refine ih next (hall next (List.mem_cons_self _ _)) ?_ y hy'
        intro x hx; exact hall x (List.mem_cons_of_mem _ hx)

/-- Property preservation through `mergeOverlappingSegments`. -/
theorem merge_all {P : FoundSegment → Prop}
    (hmerge : ∀ c n, P c → P n → P (mergeTwo c n))
    (l : List FoundSegment) (hl : ∀ x ∈ l, P x) :
    ∀ y ∈ mergeOverlappingSegments l, P y := by
  unfold mergeOverlappingSegments
  split
  case isTrue h => exact hl
  case isFalse h =>
    cases hs : stableSortBy leStart l with
    | nil => simp
    | cons c rest =>
      have hmem : ∀ x ∈ (c :: rest), x ∈ l := by
        intro x hx
        rw [← hs] at hx
        exact mem_stableSortBy.1 hx
      exact mergeLoop_all hmerge rest c (hl c (hmem c (List.mem_cons_self _ _)))
        (fun x hx => hl x (hmem x (List.mem_cons_of_mem _ hx)))

/-! ### Store round-trip lemmas -/

theorem decodeSegment_encode (s : TranscriptSegment) :
    decodeSegment (encodeSegment s) = some s := rfl

theorem decodeSegList_encode (l : List TranscriptSegment) :
    decodeSegList (l.map encodeSegment) = some l := by
  induction l with
  | nil => rfl
  | cons s l ih => simp [List.map_cons, decodeSegList, decodeSegment_encode, ih]

theorem decodeSegments_encode (l : List TranscriptSegment) :
    decodeSegments (encodeSegments l) = some l := by
  simp [decodeSegments, encodeSegments, decodeSegList_encode]

theorem decodeWord_encode (w : WordTimestamp) :
    decodeWord (encodeWord w) = some w := rfl

theorem decodeWordList_encode (l : List WordTimestamp) :
    decodeWordList (l.map encodeWord) = some l := by
  induction l with
  | nil => rfl
  | cons w l ih => simp [List.map_cons, decodeWordList, decodeWord_encode, ih]

theorem decodeWords_encode (l : List WordTimestamp) :
    decodeWords (encodeWords l) = some l := by
  simp [decodeWords, encodeWords, decodeWordList_encode]

theorem rowToResult_toSpeechRow (r : SpeechAnalysisResult) :
    rowToResult (toSpeechRow r) = some r := by
  simp [rowToResult, toSpeechRow, decodeSegments_encode, decodeWords_encode]

theorem latestByCreatedAt_append_max (l : List SpeechRow) (x : SpeechRow)
    (hl : ∀ row ∈ l, row.created_at < x.created_at) :
    latestByCreatedAt (l ++ [x]) = some x := by
  unfold latestByCreatedAt
  have key : ∀ (m : List SpeechRow) (acc : Option SpeechRow),
      (∀ row ∈ m, row.created_at < x.created_at) →
      (∀ a, acc = some a → a.created_at < x.created_at) →
      List.foldl
        (fun acc row =>
          match acc with
          | none => some row
          | some a => if a.created_at < row.created_at then some row else acc)
        acc (m ++ [x]) = some x := by
    intro m
    induction m with
    | nil =>
      intro acc _ hacc
      simp only [List.nil_append, List.foldl_cons, List.foldl_nil]
      cases acc with
      | none => rfl
      | some a => simp [hacc a rfl]
    | cons r m ih =>
      intro acc hall hacc
      simp only [List.cons_append, List.foldl_cons]
      refine ih _ (fun row hrow => hall row (List.mem_cons_of_mem _ hrow)) ?_
      intro a ha
      cases acc with
      | none =>
        simp only [Option.some.injEq] at ha
        rw [← ha]; exact hall r (List.mem_cons_self _ _)
      | some b =>
        by_cases hb : b.created_at < r.created_at
        · simp only [if_pos hb, Option.some.injEq] at ha
          rw [← ha]; exact hall r (List.mem_cons_self _ _)
        · simp only [if_neg hb, Option.some.injEq] at ha
          rw [← ha]; exact hacc b rfl
  exact key l none hl (by intro a h; cases h)

/-! ### Context-window refinement -/

/-- When a segment's `id` is its index, the loop window of
`getTranscriptContext` is exactly the spec's clamped index window over the
segment texts. -/
theorem getTranscriptContext_eq_neighborTexts (segments : List TranscriptSegment)
    (i : ℕ) :
    getTranscriptContext segments (i : ℚ) 1 =
      joinSpace (neighborTexts (segments.map (fun s => s.text)) i) := by
  unfold getTranscriptContext neighborTexts
  rw [List.length_map]
  congr 1
  have hfilter :
      (List.range segments.length).filter
        (fun (j : ℕ) =>
          decide (max 0 ((i : ℚ) - 1) ≤ (j : ℚ)) &&
          decide ((j : ℚ) ≤ min ((segments.length : ℚ) - 1) ((i : ℚ) + 1))) =
      (List.range segments.length).filter
        (fun (j : ℕ) => decide (i ≤ j + 1) && decide (j ≤ i + 1)) := by
    refine List.filter_congr ?_
    intro j hj
    have hjn : j < segments.length := List.mem_range.1 hj
    have h1 : (max 0 ((i : ℚ) - 1) ≤ (j : ℚ)) ↔ (i ≤ j + 1) := by
      rw [max_le_iff]
      constructor
      · rintro ⟨-, h⟩
        have : (i : ℚ) ≤ (j : ℚ) + 1 := by linarith
        exact_mod_cast this
      · intro h
        refine ⟨by positivity, ?_⟩
        have : (i : ℚ) ≤ (j : ℚ) + 1 := by exact_mod_cast h
        linarith
    have h2 : ((j : ℚ) ≤ min ((segments.length : ℚ) - 1) ((i : ℚ) + 1)) ↔ (j ≤ i + 1) := by
      rw [le_min_iff]
      constructor
      · rintro ⟨-, h⟩
        exact_mod_cast h
      · intro h
        constructor
        · have : (j : ℚ) + 1 ≤ (segments.length : ℚ) := by exact_mod_cast hjn
          linarith
        · exact_mod_cast h
    simp only [h1, h2]
  rw [hfilter]
  refine List.map_congr_left ?_
  intro j hj
  have hjn : j < segments.length := List.mem_range.1 (List.mem_of_mem_filter hj)
  rw [List.getD_eq_getElem _ _ hjn,
    List.getD_eq_getElem _ _ (by simpa using hjn), List.getElem_map]

/-- Every candidate is built with `duration` equal to the difference of the
`end_` and `start` it is built with. -/
theorem candidate_duration (sa : Option SpeechAnalysisResult)
    (va : Option VisualAnalysisResult) (o : FindSegmentsOptions)
    (x : FoundSegment) (hx : x ∈ candidateList sa va o) :
    x.duration = x.end_ - x.start := by
  simp only [candidateList, List.mem_append] at hx
  rcases hx with hx | hx
  · split at hx
    · split at hx
      · rcases List.mem_append.1 hx with hx | hx
        · rcases List.mem_map.1 hx with ⟨seg, _, rfl⟩
          rfl
        · unfold wordCandidates at hx
          split at hx
          · rcases List.mem_map.1 hx with ⟨w, _, rfl⟩
            rfl
          · simp at hx
      · simp at hx
    · simp at hx
  · split at hx
    · split at hx
      · rcases List.mem_map.1 hx with ⟨f, _, rfl⟩
        rfl
      · simp at hx
    · simp at hx

/-- `mergeOverlappingSegments` fixes any start-sorted, strictly separated
list. -/
theorem merge_of_sep (out : List FoundSegment)
    (hchain : out.Chain' (fun a b => a.start ≤ b.start ∧ a.end_ < b.start)) :
    mergeOverlappingSegments out = out := by
  have hpw := chain_sep_pairwise hchain
  unfold mergeOverlappingSegments
  split
  case isTrue h => rfl
  case isFalse h =>
    have hbool : out.Pairwise (fun x y => leStart x y = true) :=
      hpw.imp (fun hab => decide_eq_true hab.1)
    rw [stableSortBy_of_pairwise hbool]
    cases out with
    | nil => rfl
    | cons c rest => exact mergeLoop_of_sep rest c (hchain.imp (fun _ _ hab => hab.2))

/-! ## Claim theorems -/

/-- C1: for every input list of candidate `FoundSegment`s, the output of
`mergeOverlappingSegments` is sorted by `start` and strictly separated: for
every pair of consecutive elements, `end[i] < start[i+1]` (so no two
consecutive elements overlap or touch), because the sweep merges any
candidate whose `start` is `≤` the running accumulator's `end`. -/
theorem merged_output_separated (l : List FoundSegment) :
    (mergeOverlappingSegments l).Chain'
      (fun a b => a.start ≤ b.start ∧ a.end_ < b.start) :=
  merge_sep l

/-- C5: the overlap merge is idempotent — applying
`mergeOverlappingSegments` to its own output yields that output unchanged. -/
theorem merge_idempotent (l : List FoundSegment) :
    mergeOverlappingSegments (mergeOverlappingSegments l) =
      mergeOverlappingSegments l :=
  merge_of_sep _ (merge_sep l)

/-- C4: whenever the overlap merge combines two candidates (the second's
start is at most the accumulator's end, accumulator first in start order),
the merged candidate has the accumulator's `start`, `end` the maximum of the
two ends, `matchType` the shared type when both agree and `speech` otherwise,
`matchedContent` the two contents joined by `" | "`, `confidence` the maximum
of the two confidences, and the accumulator's `context`; and the first
element the sweep emits keeps the accumulator's `start` and `context`
unchanged by later merges. -/
theorem merge_combination_fields :
    (∀ c n : FoundSegment, c.start ≤ n.start → n.start ≤ c.end_ →
      mergeOverlappingSegments [c, n] =
        [{ start := c.start, end_ := max c.end_ n.end_,
           duration := max c.end_ n.end_ - c.start,
           matchType := if c.matchType = n.matchType then c.matchType
             else MatchType.speech,
           matchedContent := c.matchedContent ++ sepBar ++ n.matchedContent,
           confidence := max c.confidence n.confidence,
           context := c.context }]) ∧
    (∀ (current : FoundSegment) (rest : List FoundSegment),
      ∃ h t, mergeLoop current rest = h :: t ∧
        h.start = current.start ∧ h.context = current.context) := by
  constructor
  · intro c n hcn hov
    have hle : leStart c n = true := by
      simp only [leStart, decide_eq_true_eq]
      exact hcn
    have hsort : stableSortBy leStart [c, n] = [c, n] := by
      simp [stableSortBy, orderedInsert, hle]
    have h2 : mergeOverlappingSegments [c, n] = mergeLoop c [n] := by
      unfold mergeOverlappingSegments
      rw [if_neg (by simp), hsort]
    have h3 : mergeLoop c [n] = [mergeTwo c n] := by
      show (if n.start ≤ c.end_ then mergeLoop (mergeTwo c n) [] else c :: mergeLoop n []) =
        [mergeTwo c n]
      rw [if_pos hov]
      rfl
    rw [h2, h3]
    rfl
  · exact fun current rest => mergeLoop_head rest current

/-- Witness for C4 at the spec §8 scenario `{start:2,end:6}`,
`{start:5,end:9}`. -/
theorem merge_combination_fields_witness :
    mergeLeft.start ≤ mergeRight.start ∧ mergeRight.start ≤ mergeLeft.end_ ∧
    mergeOverlappingSegments [mergeLeft, mergeRight] =
      [{ start := mergeLeft.start, end_ := max mergeLeft.end_ mergeRight.end_,
         duration := max mergeLeft.end_ mergeRight.end_ - mergeLeft.start,
         matchType := if mergeLeft.matchType = mergeRight.matchType
           then mergeLeft.matchType else MatchType.speech,
         matchedContent := mergeLeft.matchedContent ++ sepBar ++
           mergeRight.matchedContent,
         confidence := max mergeLeft.confidence mergeRight.confidence,
         context := mergeLeft.context }] :=
  ⟨by decide, by decide,
    merge_combination_fields.1 mergeLeft mergeRight (by decide) (by decide)⟩

/-- C6: every `FoundSegment` produced by `findSegments` — whether emitted
directly from a speech segment, a word timestamp, or a frame, or produced by
merging — satisfies `duration = end - start` exactly. -/
theorem found_segment_duration (sa : Option SpeechAnalysisResult)
    (va : Option VisualAnalysisResult) (o : FindSegmentsOptions)
    (s : FoundSegment) (hs : s ∈ findSegments sa va o) :
    s.duration = s.end_ - s.start := by
  unfold findSegments at hs
  have h1 := List.take_subset _ _ hs
  rw [mem_stableSortBy] at h1
  have hstep : ∀ c n : FoundSegment,
      c.duration = c.end_ - c.start → n.duration = n.end_ - n.start →
      (mergeTwo c n).duration = (mergeTwo c n).end_ - (mergeTwo c n).start :=
    fun _ _ _ _ => rfl
  refine merge_all hstep _ ?_ s h1
  intro x hx
  exact candidate_duration sa va o x (List.mem_of_mem_filter hx)

unseal Rat.add Rat.sub Rat.mul Rat.inv in
/-- Witness for C6 on the speech scenario result. -/
theorem found_segment_duration_witness :
    productResult ∈ findSegments (some productSpeech) none productOptions ∧
    productResult.duration = productResult.end_ - productResult.start :=
  ⟨by decide,
    found_segment_duration (some productSpeech) none productOptions
      productResult (by decide)⟩

/-- C7: the visual orchestrator returns a cached record without invoking the
engine exactly when `forceReanalyze` is false and the cached record's `fps`
equals the requested `fps`; in particular a record saved at `fps = 1` is a
miss for a request at `fps = 2` and triggers a fresh analysis. -/
theorem visual_cache_gate :
    (∀ (lookup : Option VisualAnalysisResult) (fps : ℚ) (forceReanalyze : Bool)
        (fresh c : VisualAnalysisResult),
      analyzeVideoVisualCache lookup fps forceReanalyze fresh = (c, false) ↔
        forceReanalyze = false ∧ lookup = some c ∧ c.fps = fps) ∧
    analyzeVideoVisualCache (some fpsOneRecord) 2 false fpsTwoFresh =
      (fpsTwoFresh, true) := by
  constructor
  · intro lookup fps f fresh c
    unfold analyzeVideoVisualCache
    cases f with
    | true => simp
    | false =>
      cases lookup with
      | none => simp
      | some cached =>
        by_cases hfps : cached.fps = fps
        · constructor
          · intro h
            have hc : cached = c := by
              have h' : (cached, false) = (c, false) := by
                simpa [hfps] using h
              exact congrArg Prod.fst h'
            subst hc
            exact ⟨rfl, rfl, hfps⟩
          · rintro ⟨-, hl, -⟩
            have hc : cached = c := Option.some.inj hl
            rw [if_pos rfl]
            show (if cached.fps = fps then ((cached : VisualAnalysisResult), false)
              else (fresh, true)) = (c, false)
            rw [if_pos hfps, hc]
        · constructor
          · intro h
            rw [if_pos rfl] at h
            have h' : (if cached.fps = fps then ((cached : VisualAnalysisResult), false)
                else (fresh, true)) = (c, false) := h
            rw [if_neg hfps] at h'
            simp at h'
          · rintro ⟨-, hl, hf2⟩
            have hc : cached = c := Option.some.inj hl
            rw [hc] at hfps
            exact absurd hf2 hfps
  · decide

/-- C9 (code behaviour at the failing input): when audio extraction fails
after the temp directory has been created, `transcribeVideo` propagates the
failure without removing the temp directory — the `rm` sits on the success
path only and the `catch` block does not clean up; on the success path the
directory is removed. -/
theorem transcribe_cleanup_leak_on_failure :
    (transcribeVideoCleanup true false true).tempDirCreated = true ∧
    (transcribeVideoCleanup true false true).tempDirRemoved = false ∧
    (transcribeVideoCleanup true false true).failed = true ∧
    (transcribeVideoCleanup true true true).tempDirRemoved = true := by
  decide

unseal Rat.add Rat.sub Rat.mul Rat.inv in
theorem productScenario_eval :
    findSegments (some productSpeech) none productOptions = [productResult] := by
  decide

/-- C2: for a speech analysis whose segments carry their index as `id`, every
transcript segment whose case-normalised text contains the query yields a
candidate with `start = max 0 (start - expandBy)`, `end = end + expandBy`,
`matchType` speech, confidence 1, `matchedContent` the full segment text and
`context` the texts of the segment and its immediate neighbours (clamped at
the array bounds) joined with single spaces; and on the scenario
`[{id:0,start:0,end:5,text:"we launched the product today"}]` with query
`"product"` and `expandBy = 0.5`, the sole result of `findSegments` is
`{start:0, end:5.5, matchType:speech, confidence:1}`. -/
theorem speech_segment_candidate_spec :
    (∀ (segments : List TranscriptSegment) (i : ℕ) (seg : TranscriptSegment)
        (searchQuery : Str) (expandBy : ℚ) (caseSensitive : Bool),
      segments.get? i = some seg →
      seg.id = (i : ℚ) →
      strContains (normCase caseSensitive seg.text) searchQuery = true →
      ({ start := max 0 (seg.start - expandBy), end_ := seg.end_ + expandBy,
         duration := seg.end_ + expandBy - max 0 (seg.start - expandBy),
         matchType := MatchType.speech, matchedContent := seg.text,
         confidence := 1,
         context := joinSpace (neighborTexts (segments.map (fun s => s.text)) i) } :
        FoundSegment) ∈
        speechSegmentCandidates segments searchQuery expandBy caseSensitive) ∧
    findSegments (some productSpeech) none productOptions = [productResult] := by
  constructor
  · intro segments i seg searchQuery expandBy caseSensitive hget hid hmatch
    unfold speechSegmentCandidates
    refine List.mem_map.2 ⟨seg, List.mem_filter.2 ⟨?_, hmatch⟩, ?_⟩
    · exact List.get?_mem hget
    · have hctx : getTranscriptContext segments seg.id 1 =
          joinSpace (neighborTexts (segments.map (fun s => s.text)) i) := by
        rw [hid]
        exact getTranscriptContext_eq_neighborTexts segments i
      rw [← hctx]
  · exact productScenario_eval

unseal Rat.add Rat.sub Rat.mul Rat.inv in
/-- Witness for C2 on the scenario segment. -/
theorem speech_segment_candidate_spec_witness :
    [productSegment].get? 0 = some productSegment ∧
    ({ start := max 0 (productSegment.start - (1/2 : ℚ)),
       end_ := productSegment.end_ + 1/2,
       duration := productSegment.end_ + 1/2 - max 0 (productSegment.start - 1/2),
       matchType := MatchType.speech, matchedContent := productSegment.text,
       confidence := 1,
       context :=
         joinSpace (neighborTexts ([productSegment].map (fun s => s.text)) 0) } :
      FoundSegment) ∈
      speechSegmentCandidates [productSegment] (String.toList "product") (1/2) false :=
  ⟨rfl, speech_segment_candidate_spec.1 [productSegment] 0 productSegment
    (String.toList "product") (1/2) false rfl (by decide) (by decide)⟩

unseal Rat.add Rat.sub Rat.mul Rat.inv in
theorem carScenario_eval :
    findSegments none (some carVisual) carOptions = [carResult] := by
  decide

/-- C3: every frame whose description, scene, or any objects entry
(case-normalised) contains the query yields a candidate with
`start = max 0 (timestamp - expandBy)`, `end = timestamp + 1/fps + expandBy`,
`matchType` visual, confidence exactly 0.8 and `matchedContent` the frame
description; in particular a frame at timestamp 10 with fps 1 matching
query `"car"` yields `{start:9.5, end:11.5, confidence:0.8}`. -/
theorem visual_candidate_spec :
    (∀ (va : VisualAnalysisResult) (frame : FrameAnalysis) (searchQuery : Str)
        (expandBy : ℚ) (caseSensitive : Bool),
      frame ∈ va.frames →
      (strContains (normCase caseSensitive frame.description) searchQuery = true ∨
        (∃ o ∈ frame.objects, strContains (normCase caseSensitive o) searchQuery = true) ∨
        strContains (normCase caseSensitive frame.scene) searchQuery = true) →
      ({ start := max 0 (frame.timestamp - expandBy),
         end_ := frame.timestamp + 1 / va.fps + expandBy,
         duration := frame.timestamp + 1 / va.fps + expandBy -
           max 0 (frame.timestamp - expandBy),
         matchType := MatchType.visual, matchedContent := frame.description,
         confidence := 4/5, context := sceneContext frame } : FoundSegment) ∈
        visualCandidates va searchQuery expandBy caseSensitive) ∧
    findSegments none (some carVisual) carOptions = [carResult] := by
  constructor
  · intro va frame searchQuery expandBy caseSensitive hmem hdisj
    have hb : frameMatches frame searchQuery caseSensitive = true := by
      unfold frameMatches
      rcases hdisj with h | ⟨o, ho, h⟩ | h
      · simp [h]
      · simp only [Bool.or_eq_true, List.any_eq_true]
        exact Or.inl (Or.inr ⟨normCase caseSensitive o, List.mem_map.2 ⟨o, ho, rfl⟩, h⟩)
      · simp [h]
    unfold visualCandidates
    exact List.mem_map.2 ⟨frame, List.mem_filter.2 ⟨hmem, hb⟩, rfl⟩
  · exact carScenario_eval

unseal Rat.add Rat.sub Rat.mul Rat.inv in
/-- Witness for C3 on the scenario frame. -/
theorem visual_candidate_spec_witness :
    carFrame ∈ carVisual.frames ∧
    ({ start := max 0 (carFrame.timestamp - (1/2 : ℚ)),
       end_ := carFrame.timestamp + 1 / carVisual.fps + 1/2,
       duration := carFrame.timestamp + 1 / carVisual.fps + 1/2 -
         max 0 (carFrame.timestamp - 1/2),
       matchType := MatchType.visual, matchedContent := carFrame.description,
       confidence := 4/5, context := sceneContext carFrame } : FoundSegment) ∈
      visualCandidates carVisual (String.toList "car") (1/2) false :=
  ⟨by decide, visual_candidate_spec.1 carVisual carFrame (String.toList "car")
    (1/2) false (by decide) (Or.inl (by decide))⟩

/-- C8: saving a `SpeechAnalysisResult` and immediately reading it back by
`videoPath` (no newer record for that path exists) returns a record whose
`segments` and `words` sequences are exactly equal to the saved ones — the
encode into the stored blob and the decode on read compose to the identity
on these sequences. -/
theorem speech_cache_roundtrip (store : List SpeechRow) (r : SpeechAnalysisResult)
    (hlatest : ∀ row ∈ store, row.video_path = r.videoPath →
      row.created_at < r.createdAt) :
    ∃ rec, getSpeechAnalysis (saveSpeechAnalysis store r) r.videoPath = some rec ∧
      rec.segments = r.segments ∧ rec.words = r.words := by
  refine ⟨r, ?_, rfl, rfl⟩
  unfold getSpeechAnalysis saveSpeechAnalysis
  rw [List.filter_append]
  have hnew : List.filter (fun row => row.video_path == r.videoPath)
      [toSpeechRow r] = [toSpeechRow r] := by
    simp [toSpeechRow]
  rw [hnew, latestByCreatedAt_append_max]
  · show rowToResult (toSpeechRow r) = some r
    exact rowToResult_toSpeechRow r
  · intro row hrow
    have h1 : row ∈ store :=
      List.mem_of_mem_filter (List.mem_of_mem_filter hrow)
    have h2 : row.video_path = r.videoPath := by
      have := (List.mem_filter.1 hrow).2
      exact eq_of_beq this
    exact hlatest row h1 h2

/-- Witness for C8: round-trip of a concrete record through an empty store. -/
theorem speech_cache_roundtrip_witness :
    ∃ rec, getSpeechAnalysis (saveSpeechAnalysis [] rtResult) rtResult.videoPath =
        some rec ∧
      rec.segments = rtResult.segments ∧ rec.words = rtResult.words :=
  speech_cache_roundtrip [] rtResult (by intro row h; cases h)

theorem normCase_nil (cs : Bool) : normCase cs [] = [] := by
  cases cs <;> rfl

theorem speechSegmentCandidates_nil_query (segments : List TranscriptSegment)
    (e : ℚ) (cs : Bool) :
    (speechSegmentCandidates segments [] e cs).length = segments.length := by
  unfold speechSegmentCandidates
  rw [List.length_map, List.filter_eq_self.2]
  intro a _
  exact strContains_nil _

theorem wordCandidates_nil_query (segments : List TranscriptSegment)
    (words : List WordTimestamp) (e : ℚ) (cs : Bool) :
    (wordCandidates segments words [] e cs).length = words.length := by
  unfold wordCandidates
  split
  case isTrue h =>
    rw [List.length_map, List.filter_eq_self.2]
    intro a _
    exact strContains_nil _
  case isFalse h =>
    have hlen : words.length = 0 := by omega
    simp [hlen]

theorem visualCandidates_nil_query (va : VisualAnalysisResult) (e : ℚ) (cs : Bool) :
    (visualCandidates va [] e cs).length = va.frames.length := by
  unfold visualCandidates
  rw [List.length_map, List.filter_eq_self.2]
  intro f _
  unfold frameMatches
  simp [strContains_nil]

/-- C10: `findSegments` does not special-case the empty query — with query
`""`, every transcript segment, every word timestamp and every frame
matches (substring containment of the empty string is trivially true), so
the pre-filter candidate list has one candidate per segment, per word and
per frame. -/
theorem empty_query_matches_all (sa : SpeechAnalysisResult)
    (va : VisualAnalysisResult) (maxResults : ℕ) (minDuration expandBy : ℚ)
    (cs : Bool) :
    (candidateList (some sa) (some va)
        ⟨[], SearchType.both, maxResults, minDuration, expandBy, cs⟩).length =
      sa.segments.length + sa.words.length + va.frames.length ∧
    (candidateList (some sa) none
        ⟨[], SearchType.speech, maxResults, minDuration, expandBy, cs⟩).length =
      sa.segments.length + sa.words.length ∧
    (candidateList none (some va)
        ⟨[], SearchType.visual, maxResults, minDuration, expandBy, cs⟩).length =
      va.frames.length := by
  refine ⟨?_, ?_, ?_⟩ <;>
    simp [candidateList, normCase_nil, speechSegmentCandidates_nil_query,
      wordCandidates_nil_query, visualCandidates_nil_query, Nat.add_assoc]
